import Mathlib

set_option linter.unusedSectionVars false

/-!
# Verification of the `Categorize` codec (`numcodecs/categorize.py`)

Shallow embedding of the `Categorize` filter: a codec that maps an array of
categorical values to an array of small integer codes (1-based position in a
configured label list, with `0` as the sentinel for unmapped values) and back.

Modelling choices, read off the Python source:

* A flat array of elements of the decoded dtype is a `List V`, where `V` is any
  type with decidable equality (the codec only ever compares elements for
  equality).  The dtype itself is represented by the data the codec semantics
  depend on: its zero value (`np.zeros_like` default-initialisation).
* The encoded dtype (`astype`, an unsigned integer dtype) is represented by its
  bit width `width`; an array of codes is a `List Nat` whose elements are the
  stored (already width-reduced) code values.
* `enc[arr == l] = i + 1` assigns the Python int `i + 1` into an array of dtype
  `astype`; NumPy casts the value into the destination dtype with C-style
  wraparound, so the stored value is `(i + 1) % 2 ^ width`.
* `dec[enc == (i + 1)] = l` compares stored codes with the Python int `i + 1`;
  NumPy performs this comparison after promoting both sides to a common wide
  type, so it does **not** wrap: a stored code matches exactly when it equals
  `i + 1` as an unbounded integer.
* Masked assignment over the whole array, iterated over `enumerate(labels)`,
  is a left fold of per-label `zipWith` sweeps; later labels overwrite earlier
  assignments exactly as in the source.
-/

/-- The `Categorize` codec state fixed by `__init__`: the (already normalised)
label list, the zero value of the decoded dtype `self.dtype`, and the bit width
of the encoded dtype `self.astype`. -/
structure Categorize (V : Type) where
  labels : List V
  zero : V
  width : Nat

namespace Categorize

variable {V : Type} [DecidableEq V]

/-- `Categorize.encode`: view the input as an array `arr`, allocate
`enc = np.zeros_like(arr, dtype=self.astype)`, then for each `(i, l)` in
`enumerate(self.labels)` perform the masked assignment `enc[arr == l] = i + 1`
(the assigned value is cast into `astype`, i.e. reduced `% 2 ^ width`). -/
def encode (c : Categorize V) (arr : List V) : List Nat :=
  (c.labels.enum).foldl
    (fun enc il =>
      List.zipWith (fun a e => if a = il.2 then (il.1 + 1) % 2 ^ c.width else e) arr enc)
    (List.replicate arr.length 0)

/-- The decoding loop of `Categorize.decode`: starting from a working array
`dec`, for each `(i, l)` in `enumerate(self.labels)` perform the masked
assignment `dec[enc == (i + 1)] = l`. -/
def decodeCore (c : Categorize V) (enc : List Nat) (dec : List V) : List V :=
  (c.labels.enum).foldl
    (fun dec il => List.zipWith (fun e d => if e = il.1 + 1 then il.2 else d) enc dec)
    dec

/-- `Categorize.decode` together with its `copy_needed` flag.  When `out` is a
typed array (`some o`), the source sets `dec = out.reshape(-1)` and
`copy_needed = False`: the loop writes directly into the caller's buffer and no
second working array is allocated.  Otherwise it allocates
`dec = np.zeros_like(enc, dtype=self.dtype)` and sets `copy_needed = True`; the
final `buffer_copy(dec, out)` (a compat helper outside the studied sources,
which per the spec returns the working array unchanged when no output buffer
was supplied) leaves the freshly allocated array as the result for
`out = None`. -/
def decodeImpl (c : Categorize V) (enc : List Nat) (out : Option (List V)) :
    List V × Bool :=
  match out with
  | some o => (decodeCore c enc o, false)
  | none => (decodeCore c enc (List.replicate enc.length c.zero), true)

/-- The value returned by `Categorize.decode`. -/
def decode (c : Categorize V) (enc : List Nat) (out : Option (List V)) : List V :=
  (decodeImpl c enc out).1

/-- Per-element view of the encoding loop: the code that a single input value
`v` ends up with after all the masked assignments. -/
def encodeElem (labels : List V) (w : Nat) (v : V) : Nat :=
  (labels.enum).foldl (fun code il => if v = il.2 then (il.1 + 1) % 2 ^ w else code) 0

/-- Per-element view of the decoding loop: the value that a single stored code
`e` decodes to, starting from the working array's prior value `d`. -/
def decodeElemD (labels : List V) (e : Nat) (d : V) : V :=
  (labels.enum).foldl (fun dec il => if e = il.1 + 1 then il.2 else dec) d

end Categorize

/-- Value domain for the dtype-kind dispatch in `__init__` and `get_config`:
fixed-width byte strings (dtype kind `S`, a list of byte values), fixed-width
text strings (dtype kind `U`, a list of code points), or any other value,
compared opaquely. -/
inductive RVal where
  | bstr : List Nat → RVal
  | ustr : List Nat → RVal
  | num : Int → RVal
deriving DecidableEq

/-- The decoded dtype's `kind`: `S` for byte strings, `U` for text strings,
`O` for everything else. -/
inductive DKind where
  | S
  | U
  | O
deriving DecidableEq

/-- Modelled from the spec: `ensure_bytes` from `numcodecs.compat` is not
among the studied sources; the spec says construction coerces every label to
bytes when the decoded type is a byte-string type, fixing only the
representation class and no character encoding, so the coercion is modelled as
the byte-transparent (one code point per byte) correspondence. -/
def ensure_bytes : RVal → RVal
  | .ustr s => .bstr s
  | v => v

/-- Modelled from the spec: `ensure_text` from `numcodecs.compat` is not among
the studied sources; the spec says labels are normalised to text for
portability, fixing only the representation class, so the coercion is modelled
as the byte-transparent correspondence inverse to `ensure_bytes`. -/
def ensure_text : RVal → RVal
  | .bstr b => .ustr b
  | v => v

/-- A constructed codec instance over the concrete value domain: the
normalised `Categorize` state together with the stored decoded dtype's kind,
which `get_config` dispatches on. -/
structure CategorizeR where
  kind : DKind
  codec : Categorize RVal

/-- `Categorize.__init__(labels, dtype, astype)`: store the decoded dtype,
normalise the labels according to its kind (`ensure_bytes` for kind `S`,
`ensure_text` for kind `U`, unchanged otherwise), and store the encoded
dtype.  The decoded dtype is represented by its kind and zero value, the
encoded dtype by its bit width; no width validation is performed. -/
def initR (labels : List RVal) (kind : DKind) (zero : RVal) (width : Nat) :
    CategorizeR :=
  { kind := kind
    codec :=
      { labels :=
          match kind with
          | .S => labels.map ensure_bytes
          | .U => labels.map ensure_text
          | .O => labels
        zero := zero
        width := width } }

/-- `Categorize.get_config`: the content of the exported configuration record
that determines reconstruction — the label list (normalised to text when the
decoded dtype's kind is `S`), the decoded dtype (kind and zero value), and the
encoded dtype (width). -/
def get_config (c : CategorizeR) : List RVal × DKind × RVal × Nat :=
  (if c.kind = DKind.S then c.codec.labels.map ensure_text else c.codec.labels,
    c.kind, c.codec.zero, c.codec.width)

/-- Construct a fresh codec from the `labels`, `dtype` and `astype` fields of
an exported configuration. -/
def reconstruct (c : CategorizeR) : CategorizeR :=
  match get_config c with
  | (ls, k, z, w) => initR ls k z w

section FoldZip

variable {α β γ : Type}

/-- A fold of `zipWith` sweeps against a fixed base list acts independently on
the head and the tail. -/
theorem foldl_zipWith_cons (g : β → α → γ → γ) (ps : List β) (a : α) (as : List α)
    (x : γ) (xs : List γ) :
    ps.foldl (fun acc p => List.zipWith (fun a x => g p a x) (a :: as) acc) (x :: xs) =
      ps.foldl (fun x p => g p a x) x ::
        ps.foldl (fun acc p => List.zipWith (fun a x => g p a x) as acc) xs := by
  induction ps generalizing x xs with
  | nil => rfl
  | cons p ps ih =>
    simp only [List.foldl_cons, List.zipWith_cons_cons]
    exact ih (g p a x) (List.zipWith (fun a x => g p a x) as xs)

theorem foldl_zipWith_nil (g : β → α → γ → γ) (ps : List β) :
    ps.foldl (fun acc p => List.zipWith (fun a x => g p a x) ([] : List α) acc)
      ([] : List γ) = [] := by
  induction ps with
  | nil => rfl
  | cons p ps ih => simpa using ih

/-- A fold of elementwise `zipWith` sweeps is an elementwise map over the
zipped lists. -/
theorem foldl_zipWith_eq_map (g : β → α → γ → γ) (ps : List β) :
    ∀ (as : List α) (xs : List γ), as.length = xs.length →
      ps.foldl (fun acc p => List.zipWith (fun a x => g p a x) as acc) xs =
        (as.zip xs).map (fun ax => ps.foldl (fun x p => g p ax.1 x) ax.2) := by
  intro as
  induction as with
  | nil =>
    intro xs h
    obtain rfl : xs = [] := List.eq_nil_of_length_eq_zero h.symm
    simpa using foldl_zipWith_nil g ps
  | cons a as ih =>
    intro xs h
    match xs with
    | x :: xs =>
      simp only [List.zip_cons_cons, List.map_cons]
      rw [foldl_zipWith_cons, ih xs (by simpa using h)]

theorem zip_replicate_map {δ : Type} (f : α × γ → δ) (x : γ) (as : List α) :
    ((as.zip (List.replicate as.length x)).map f) = as.map (fun a => f (a, x)) := by
  induction as with
  | nil => rfl
  | cons a as ih => simpa [List.replicate_succ] using ih

end FoldZip

namespace Categorize

variable {V : Type} [DecidableEq V]

/-- `encode` is an elementwise map: each output code depends only on the input
value at the same position. -/
theorem encode_eq_map (c : Categorize V) (arr : List V) :
    encode c arr = arr.map (encodeElem c.labels c.width) := by
  unfold encode
  rw [foldl_zipWith_eq_map (fun il a e => if a = il.2 then (il.1 + 1) % 2 ^ c.width else e)
      (c.labels.enum) arr (List.replicate arr.length 0) (by simp)]
  exact zip_replicate_map _ 0 arr

theorem encode_length (c : Categorize V) (arr : List V) :
    (encode c arr).length = arr.length := by
  rw [encode_eq_map]; simp

/-- The decoding loop is an elementwise map over the zipped code/working
arrays. -/
theorem decodeCore_eq_map (c : Categorize V) (enc : List Nat) (dec : List V)
    (h : enc.length = dec.length) :
    decodeCore c enc dec =
      (enc.zip dec).map (fun p => decodeElemD c.labels p.1 p.2) := by
  unfold decodeCore
  rw [foldl_zipWith_eq_map (fun il e d => if e = il.1 + 1 then il.2 else d)
      (c.labels.enum) enc dec h]
  rfl

/-- `decode` without an output buffer is an elementwise map of the stored
codes, with the freshly allocated zero value as the fallback. -/
theorem decode_none_eq_map (c : Categorize V) (enc : List Nat) :
    decode c enc none = enc.map (fun e => decodeElemD c.labels e c.zero) := by
  show decodeCore c enc (List.replicate enc.length c.zero) = _
  rw [decodeCore_eq_map c enc _ (by simp)]
  exact zip_replicate_map _ c.zero enc

theorem decode_none_length (c : Categorize V) (enc : List Nat) :
    (decode c enc none).length = enc.length := by
  rw [decode_none_eq_map]; simp

theorem decode_some_length (c : Categorize V) (enc : List Nat) (o : List V)
    (h : o.length = enc.length) : (decode c enc (some o)).length = enc.length := by
  show (decodeCore c enc o).length = enc.length
  rw [decodeCore_eq_map c enc o h.symm]
  simp [h]

/-- An element matching no label is never assigned by the encoding loop. -/
theorem encode_fold_of_not_mem (w : Nat) (v : V) :
    ∀ (ls : List V) (n acc : Nat), v ∉ ls →
      (List.enumFrom n ls).foldl
        (fun code il => if v = il.2 then (il.1 + 1) % 2 ^ w else code) acc = acc := by
  intro ls
  induction ls with
  | nil => intro n acc _; rfl
  | cons a as ih =>
    intro n acc h
    have hva : v ≠ a := fun hv => h (hv ▸ List.mem_cons_self a as)
    have hvas : v ∉ as := fun hv => h (List.mem_cons_of_mem a hv)
    simpa [List.enumFrom, hva] using ih (n + 1) acc hvas

/-- The encoding loop stores `(i + 1) % 2 ^ w` at an element equal to
`labels[i]` when no later label also matches it (last match wins). -/
theorem encode_fold_last_match (w : Nat) (v : V) :
    ∀ (ls : List V) (n acc i : Nat) (hi : i < ls.length),
      ls.get ⟨i, hi⟩ = v →
      (∀ i' (hi' : i' < ls.length), i < i' → ls.get ⟨i', hi'⟩ ≠ v) →
      (List.enumFrom n ls).foldl
        (fun code il => if v = il.2 then (il.1 + 1) % 2 ^ w else code) acc
        = (n + i + 1) % 2 ^ w := by
  intro ls
  induction ls with
  | nil => intro n acc i hi; exact absurd hi (by simp)
  | cons a as ih =>
    intro n acc i hi hv hlast
    match i with
    | 0 =>
      have hva : v = a := hv.symm
      have hvas : v ∉ as := by
        intro hmem
        obtain ⟨⟨j, hj⟩, hjv⟩ := List.mem_iff_get.mp hmem
        exact hlast (j + 1) (by simpa using Nat.succ_lt_succ hj) (Nat.succ_pos j)
          (by simpa using hjv)
      simpa [List.enumFrom, hva] using
        encode_fold_of_not_mem w v as (n + 1) ((n + 1) % 2 ^ w) hvas
    | j + 1 =>
      have hj : j < as.length := by simpa using Nat.lt_of_succ_lt_succ hi
      have harith : n + 1 + j + 1 = n + (j + 1) + 1 := by omega
      have hlast' : ∀ i' (hi' : i' < as.length), j < i' → as.get ⟨i', hi'⟩ ≠ v := by
        intro i' hi' hji'
        have := hlast (i' + 1) (by simpa using Nat.succ_lt_succ hi')
          (Nat.succ_lt_succ hji')
        simpa using this
      calc (List.enumFrom n (a :: as)).foldl
            (fun code il => if v = il.2 then (il.1 + 1) % 2 ^ w else code) acc
          = (List.enumFrom (n + 1) as).foldl
            (fun code il => if v = il.2 then (il.1 + 1) % 2 ^ w else code)
            (if v = a then (n + 1) % 2 ^ w else acc) := by simp [List.enumFrom]
        _ = (n + 1 + j + 1) % 2 ^ w := ih (n + 1) _ j hj (by simpa using hv) hlast'
        _ = (n + (j + 1) + 1) % 2 ^ w := by rw [harith]

/-- A stored code that equals no `i + 1` in range leaves the working array's
prior value untouched. -/
theorem decode_fold_no_hit (e : Nat) :
    ∀ (ls : List V) (n : Nat) (d : V),
      (∀ i, i < ls.length → e ≠ n + i + 1) →
      (List.enumFrom n ls).foldl
        (fun dec il => if e = il.1 + 1 then il.2 else dec) d = d := by
  intro ls
  induction ls with
  | nil => intro n d _; rfl
  | cons a as ih =>
    intro n d h
    have h0 : e ≠ n + 1 := by
      have := h 0 (by simp)
      simpa using this
    have h' : ∀ i, i < as.length → e ≠ n + 1 + i + 1 := by
      intro i hi
      have := h (i + 1) (by simpa using Nat.succ_lt_succ hi)
      omega
    simpa [List.enumFrom, h0] using ih (n + 1) d h'

/-- A stored code `n + i + 1` decodes to `labels[i]` (the matching loop index
is unique, so the hit is final). -/
theorem decode_fold_hit (e : Nat) :
    ∀ (ls : List V) (n : Nat) (d : V) (i : Nat) (hi : i < ls.length),
      e = n + i + 1 →
      (List.enumFrom n ls).foldl
        (fun dec il => if e = il.1 + 1 then il.2 else dec) d = ls.get ⟨i, hi⟩ := by
  intro ls
  induction ls with
  | nil => intro n d i hi; exact absurd hi (by simp)
  | cons a as ih =>
    intro n d i hi he
    match i with
    | 0 =>
      have h0 : e = n + 1 := by omega
      have hrest : ∀ i, i < as.length → e ≠ n + 1 + i + 1 := by intro i _; omega
      simpa [List.enumFrom, h0] using decode_fold_no_hit e as (n + 1) a hrest
    | j + 1 =>
      have hj : j < as.length := by simpa using Nat.lt_of_succ_lt_succ hi
      have h0 : e ≠ n + 1 := by omega
      have := ih (n + 1) d j hj (by omega)
      simpa [List.enumFrom, h0] using this

/-- `encodeElem` on a value outside the label list yields the sentinel `0`. -/
theorem encodeElem_of_not_mem (labels : List V) (w : Nat) (v : V) (h : v ∉ labels) :
    encodeElem labels w v = 0 :=
  encode_fold_of_not_mem w v labels 0 0 h

/-- `encodeElem` on a value last matched by `labels[i]` yields
`(i + 1) % 2 ^ w`. -/
theorem encodeElem_last_match (labels : List V) (w : Nat) (v : V) (i : Nat)
    (hi : i < labels.length) (hv : labels.get ⟨i, hi⟩ = v)
    (hlast : ∀ i' (hi' : i' < labels.length), i < i' → labels.get ⟨i', hi'⟩ ≠ v) :
    encodeElem labels w v = (i + 1) % 2 ^ w := by
  have := encode_fold_last_match w v labels 0 0 i hi hv hlast
  simpa using this

/-- An unassigned code (neither `i + 1` for any label index `i`) decodes to the
working array's prior value. -/
theorem decodeElemD_of_unassigned (labels : List V) (e : Nat) (d : V)
    (h : ∀ i, i < labels.length → e ≠ i + 1) :
    decodeElemD labels e d = d := by
  have h' : ∀ i, i < labels.length → e ≠ 0 + i + 1 := by
    intro i hi
    simpa using h i hi
  exact decode_fold_no_hit e labels 0 d h'

theorem decodeElemD_sentinel (labels : List V) (d : V) :
    decodeElemD labels 0 d = d :=
  decodeElemD_of_unassigned labels 0 d (by omega)

theorem decodeElemD_of_gt (labels : List V) (e : Nat) (d : V)
    (h : labels.length < e) : decodeElemD labels e d = d :=
  decodeElemD_of_unassigned labels e d (by omega)

/-- Code `i + 1` decodes to `labels[i]`. -/
theorem decodeElemD_hit (labels : List V) (i : Nat) (hi : i < labels.length) (d : V) :
    decodeElemD labels (i + 1) d = labels.get ⟨i, hi⟩ :=
  decode_fold_hit (i + 1) labels 0 d i hi (by omega)

/-- Every list member has a last occurrence: an index holding it that no later
index also holds. -/
theorem exists_last_match (v : V) :
    ∀ (ls : List V), v ∈ ls →
      ∃ i, ∃ hi : i < ls.length, ls.get ⟨i, hi⟩ = v ∧
        ∀ i' (hi' : i' < ls.length), i < i' → ls.get ⟨i', hi'⟩ ≠ v := by
  intro ls
  induction ls with
  | nil => intro h; exact absurd h (by simp)
  | cons a as ih =>
    intro h
    by_cases hmem : v ∈ as
    · obtain ⟨i, hi, hv, hlast⟩ := ih hmem
      refine ⟨i + 1, by simpa using Nat.succ_lt_succ hi, by simpa using hv, ?_⟩
      intro i' hi' hlt
      match i' with
      | 0 => omega
      | j + 1 =>
        have hj : j < as.length := by simpa using Nat.lt_of_succ_lt_succ hi'
        have := hlast j hj (by omega)
        simpa using this
    · have hva : v = a := by
        rcases List.mem_cons.mp h with h1 | h2
        · exact h1
        · exact absurd h2 hmem
      refine ⟨0, by simp, by simpa using hva.symm, ?_⟩
      intro i' hi' hlt
      match i' with
      | 0 => omega
      | j + 1 =>
        have hj : j < as.length := by simpa using Nat.lt_of_succ_lt_succ hi'
        intro heq
        have hgv : as.get ⟨j, hj⟩ = v := by simpa using heq
        exact hmem (hgv ▸ List.get_mem as j hj)

/-- Encoding then decoding a single value returns that value, provided the
value is a label and the encoded width can represent every code. -/
theorem decodeElemD_encodeElem (labels : List V) (w : Nat)
    (hw : labels.length < 2 ^ w) (v : V) (hv : v ∈ labels) (d : V) :
    decodeElemD labels (encodeElem labels w v) d = v := by
  obtain ⟨i, hi, hget, hlast⟩ := exists_last_match v labels hv
  rw [encodeElem_last_match labels w v i hi hget hlast,
    Nat.mod_eq_of_lt (by omega), decodeElemD_hit labels i hi d]
  exact hget

/-- When the encoded width can represent every code, an element encodes to the
sentinel `0` exactly when it matches no label. -/
theorem encodeElem_eq_zero_iff (labels : List V) (w : Nat)
    (hw : labels.length < 2 ^ w) (v : V) :
    encodeElem labels w v = 0 ↔ v ∉ labels := by
  constructor
  · intro h0 hv
    obtain ⟨i, hi, hget, hlast⟩ := exists_last_match v labels hv
    rw [encodeElem_last_match labels w v i hi hget hlast,
      Nat.mod_eq_of_lt (by omega)] at h0
    omega
  · exact encodeElem_of_not_mem labels w v

variable [Inhabited V]

/-- Position `j` of an encoded array holds the per-element code of the input
value at position `j`. -/
theorem encode_getElem (c : Categorize V) (arr : List V) (j : Nat)
    (h : j < arr.length) :
    (encode c arr)[j]! = encodeElem c.labels c.width (arr[j]!) := by
  have h' : j < (arr.map (encodeElem c.labels c.width)).length := by simpa using h
  rw [encode_eq_map, getElem!_pos (arr.map (encodeElem c.labels c.width)) j h',
    getElem!_pos arr j h, List.getElem_map]

/-- Position `j` of a buffer-less decode holds the per-element decoding of the
stored code at position `j`, with the zero value as fallback. -/
theorem decode_none_getElem (c : Categorize V) (enc : List Nat) (j : Nat)
    (h : j < enc.length) :
    (decode c enc none)[j]! = decodeElemD c.labels (enc[j]!) c.zero := by
  have h' : j < (enc.map (fun e => decodeElemD c.labels e c.zero)).length := by
    simpa using h
  rw [decode_none_eq_map,
    getElem!_pos (enc.map (fun e => decodeElemD c.labels e c.zero)) j h',
    getElem!_pos enc j h, List.getElem_map]

/-- Position `j` of a decode into a caller-supplied buffer holds the
per-element decoding of the stored code at position `j`, with the buffer's
prior value at `j` as fallback. -/
theorem decode_some_getElem (c : Categorize V) (enc : List Nat) (o : List V)
    (ho : o.length = enc.length) (j : Nat) (h : j < enc.length) :
    (decode c enc (some o))[j]! =
      decodeElemD c.labels (enc[j]!) (o[j]!) := by
  have hz : j < (enc.zip o).length := by simp [List.length_zip]; omega
  have h' : j < ((enc.zip o).map (fun p => decodeElemD c.labels p.1 p.2)).length := by
    simpa using hz
  have ho' : j < o.length := by omega
  show (decodeCore c enc o)[j]! = _
  rw [decodeCore_eq_map c enc o ho.symm,
    getElem!_pos ((enc.zip o).map (fun p => decodeElemD c.labels p.1 p.2)) j h',
    List.getElem_map, List.getElem_zip, getElem!_pos enc j h, getElem!_pos o j ho']

end Categorize

/-- Coercing to bytes, then to text, then to bytes again is the same as
coercing to bytes once. -/
theorem ensure_bte (v : RVal) :
    ensure_bytes (ensure_text (ensure_bytes v)) = ensure_bytes v := by
  cases v <;> rfl

/-- Coercing to text twice is the same as coercing to text once. -/
theorem ensure_tt (v : RVal) :
    ensure_text (ensure_text v) = ensure_text v := by
  cases v <;> rfl

/-- Reconstructing a codec from its exported configuration reproduces the
stored codec state exactly. -/
theorem reconstruct_codec_eq (labels : List RVal) (kind : DKind) (zero : RVal)
    (width : Nat) :
    (reconstruct (initR labels kind zero width)).codec
      = (initR labels kind zero width).codec := by
  cases kind <;>
    simp [reconstruct, get_config, initR, ensure_bte, ensure_tt]

namespace Categorize

variable {V : Type} [DecidableEq V]

set_option maxRecDepth 40000 in
/-- Claim C1 counterexample: with 256 labels and a 1-byte encoded type the
round trip fails even on an input composed solely of label values — the 256th
label encodes to the wrapped code `0`, which decodes to the dtype's zero
value. -/
theorem roundtrip_overflow_cex :
    decode ⟨List.range 256, (0 : Nat), 8⟩
      (encode ⟨List.range 256, (0 : Nat), 8⟩ [255]) none ≠ [255] := by
  decide

/-- Claim C1 (amended): for every codec configuration whose encoded type is
wide enough for every code (`len(labels) < 2 ^ width`) and every input array
composed solely of label values, `decode (encode x) = x` element-wise. -/
theorem roundtrip_decode_encode (c : Categorize V) (x : List V)
    (hw : c.labels.length < 2 ^ c.width) (hx : ∀ v ∈ x, v ∈ c.labels) :
    decode c (encode c x) none = x := by
  rw [encode_eq_map, decode_none_eq_map, List.map_map]
  have h1 : x.map ((fun e => decodeElemD c.labels e c.zero) ∘
      encodeElem c.labels c.width) = x.map id :=
    List.map_congr_left fun v hv =>
      decodeElemD_encodeElem c.labels c.width hw v (hx v hv) c.zero
  rw [h1, List.map_id]

/-- Claim C1 witness. -/
theorem roundtrip_decode_encode_witness :
    decode ⟨[10, 20], (0 : Nat), 8⟩
      (encode ⟨[10, 20], (0 : Nat), 8⟩ [20, 10, 20]) none = [20, 10, 20] :=
  roundtrip_decode_encode ⟨[10, 20], (0 : Nat), 8⟩ [20, 10, 20] (by decide) (by decide)

/-- Claim C2 counterexample: decoding `[0]` into the correctly sized supplied
buffer `[7]` returns `[7]`, while decoding the same input without a buffer
returns `[0]`. -/
theorem decode_out_values_cex :
    decode ⟨[(1 : Nat)], 0, 8⟩ [0] (some [7]) ≠
      decode ⟨[(1 : Nat)], 0, 8⟩ [0] none := by
  decide

/-- Claim C2 (amended): decoding into a caller-supplied typed-array buffer of
the correct size allocates no second working array (the `copy_needed` flag is
false), agrees with the buffer-less decode at every position holding an
assigned code (between `1` and `len(labels)`), and agrees everywhere when the
supplied buffer is zero-initialised. -/
theorem decode_out_buffer_spec [Inhabited V] (c : Categorize V) (enc : List Nat)
    (o : List V) (ho : o.length = enc.length) :
    (decodeImpl c enc (some o)).2 = false ∧
    (∀ j, j < enc.length → 1 ≤ enc[j]! → enc[j]! ≤ c.labels.length →
      (decode c enc (some o))[j]! = (decode c enc none)[j]!) ∧
    decode c enc (some (List.replicate enc.length c.zero)) = decode c enc none := by
  refine ⟨rfl, ?_, rfl⟩
  intro j hj h1 h2
  rw [decode_some_getElem c enc o ho j hj, decode_none_getElem c enc j hj]
  generalize he : enc[j]! = e at h1 h2
  obtain ⟨i, rfl⟩ : ∃ i, e = i + 1 := ⟨e - 1, by omega⟩
  have hi : i < c.labels.length := by omega
  rw [decodeElemD_hit c.labels i hi, decodeElemD_hit c.labels i hi]

/-- Claim C2 witness. -/
theorem decode_out_buffer_spec_witness :
    (decodeImpl ⟨[(5 : Nat)], 0, 8⟩ [1, 0] (some [9, 9])).2 = false ∧
    (decode ⟨[(5 : Nat)], 0, 8⟩ [1, 0] (some [9, 9]))[0]! =
      (decode ⟨[(5 : Nat)], 0, 8⟩ [1, 0] none)[0]! :=
  ⟨(decode_out_buffer_spec ⟨[(5 : Nat)], 0, 8⟩ [1, 0] [9, 9] (by decide)).1,
    (decode_out_buffer_spec ⟨[(5 : Nat)], 0, 8⟩ [1, 0] [9, 9] (by decide)).2.1 0
      (by decide) (by decide) (by decide)⟩

/-- Claim C3 counterexample: decoding `[0]` into the supplied buffer `[7]`
leaves `7` — not the zero value `0` of the decoded dtype — at the position
whose code is `0`. -/
theorem decode_unmapped_out_cex :
    (decode ⟨[(1 : Nat)], 0, 8⟩ [0] (some [7]))[0]! = 7 ∧ (7 : Nat) ≠ 0 := by
  decide

/-- Claim C3 (amended): in a decode without a supplied buffer, every position
whose code is `0` or exceeds `len(labels)` ends up holding the zero value of
the decoded dtype; with a supplied buffer of the correct size such positions
retain the buffer's prior value instead. -/
theorem decode_unmapped_default [Inhabited V] (c : Categorize V)
    (enc : List Nat) (j : Nat) (hj : j < enc.length)
    (hcode : enc[j]! = 0 ∨ c.labels.length < enc[j]!) :
    (decode c enc none)[j]! = c.zero ∧
    ∀ o : List V, o.length = enc.length → (decode c enc (some o))[j]! = o[j]! := by
  have hun : ∀ i, i < c.labels.length → enc[j]! ≠ i + 1 := by
    rcases hcode with h | h <;> (intro i hi; omega)
  constructor
  · rw [decode_none_getElem c enc j hj]
    exact decodeElemD_of_unassigned c.labels _ c.zero hun
  · intro o ho
    rw [decode_some_getElem c enc o ho j hj]
    exact decodeElemD_of_unassigned c.labels _ _ hun

/-- Claim C3 witness. -/
theorem decode_unmapped_default_witness :
    (decode ⟨[(5 : Nat)], 0, 8⟩ [9] none)[0]! = 0 ∧
    (decode ⟨[(5 : Nat)], 0, 8⟩ [9] (some [3]))[0]! = 3 :=
  ⟨(decode_unmapped_default ⟨[(5 : Nat)], 0, 8⟩ [9] 0 (by decide) (by decide)).1,
    (decode_unmapped_default ⟨[(5 : Nat)], 0, 8⟩ [9] 0 (by decide) (by decide)).2
      [3] (by decide)⟩

/-- Claim C4: for every codec configuration, `encode` maps every element that
matches no label to the sentinel code `0`, and the allocating `decode` maps
code `0` to the zero value of the decoded dtype, regardless of the label
set. -/
theorem sentinel_property [Inhabited V] (c : Categorize V) :
    (∀ (arr : List V) (j : Nat), j < arr.length → arr[j]! ∉ c.labels →
      (encode c arr)[j]! = 0) ∧
    (∀ (enc : List Nat) (j : Nat), j < enc.length → enc[j]! = 0 →
      (decode c enc none)[j]! = c.zero) := by
  constructor
  · intro arr j hj hmem
    rw [encode_getElem c arr j hj]
    exact encodeElem_of_not_mem c.labels c.width _ hmem
  · intro enc j hj h0
    rw [decode_none_getElem c enc j hj, h0]
    exact decodeElemD_sentinel c.labels c.zero

/-- Claim C4 witness. -/
theorem sentinel_property_witness :
    (encode ⟨[(5 : Nat)], 0, 8⟩ [3])[0]! = 0 ∧
    (decode ⟨[(5 : Nat)], 0, 8⟩ [0] none)[0]! = 0 :=
  ⟨(sentinel_property ⟨[(5 : Nat)], 0, 8⟩).1 [3] 0 (by decide) (by decide),
    (sentinel_property ⟨[(5 : Nat)], 0, 8⟩).2 [0] 0 (by decide) (by decide)⟩

/-- Claim C5: constructing a codec, exporting its configuration, and
constructing a new codec from the labels, dtype and astype of that
configuration produces a codec whose encode and decode results equal the
original codec's on every input. -/
theorem config_roundtrip_behavior (labels : List RVal) (kind : DKind)
    (zero : RVal) (width : Nat) (arr : List RVal) (enc : List Nat)
    (out : Option (List RVal)) :
    encode (reconstruct (initR labels kind zero width)).codec arr
      = encode (initR labels kind zero width).codec arr ∧
    decode (reconstruct (initR labels kind zero width)).codec enc out
      = decode (initR labels kind zero width).codec enc out := by
  rw [reconstruct_codec_eq]
  exact ⟨rfl, rfl⟩

/-- Claim C6: with the duplicated label list `[A, A]` and the default 1-byte
encoded type, encoding a value equal to `A` yields code `2` (the later
matching label overwrites the earlier assignment), while decoding code `1`
yields `A` and decoding code `2` also yields `A`. -/
theorem duplicate_label_policy (A zero : V) :
    encode ⟨[A, A], zero, 8⟩ [A] = [2] ∧
    decode ⟨[A, A], zero, 8⟩ [1] none = [A] ∧
    decode ⟨[A, A], zero, 8⟩ [2] none = [A] := by
  refine ⟨?_, ?_, ?_⟩
  · rw [encode_eq_map]
    show [encodeElem [A, A] 8 A] = [2]
    have hlast : ∀ i' (hi' : i' < List.length [A, A]), 1 < i' →
        List.get [A, A] ⟨i', hi'⟩ ≠ A := fun i' hi' h => by
      simp only [List.length_cons, List.length_nil] at hi'
      exact absurd hi' (by omega)
    have h2 := encodeElem_last_match [A, A] 8 A 1 (by simp) rfl hlast
    rw [h2]
    norm_num
  · rw [decode_none_eq_map]
    show [decodeElemD [A, A] (0 + 1) zero] = [A]
    rw [decodeElemD_hit [A, A] 0 (by simp) zero]
    rfl
  · rw [decode_none_eq_map]
    show [decodeElemD [A, A] (1 + 1) zero] = [A]
    rw [decodeElemD_hit [A, A] 1 (by simp) zero]
    rfl

/-- Claim C5 witness. -/
theorem config_roundtrip_behavior_witness :
    encode (reconstruct (initR [RVal.bstr [102]] DKind.S (RVal.bstr []) 8)).codec
        [RVal.bstr [102]]
      = encode (initR [RVal.bstr [102]] DKind.S (RVal.bstr []) 8).codec
        [RVal.bstr [102]] ∧
    decode (reconstruct (initR [RVal.bstr [102]] DKind.S (RVal.bstr []) 8)).codec
        [1] none
      = decode (initR [RVal.bstr [102]] DKind.S (RVal.bstr []) 8).codec [1] none :=
  config_roundtrip_behavior [RVal.bstr [102]] DKind.S (RVal.bstr []) 8
    [RVal.bstr [102]] [1] none

/-- Claim C7: `encode` stores `(i + 1) % 2 ^ width` at every position whose
value is last matched by `labels[i]`, silently wrapping — with no error and no
width validation — when the encoded type is too narrow for the label count. -/
theorem encode_wraparound [Inhabited V] (c : Categorize V) (arr : List V)
    (j i : Nat) (hj : j < arr.length) (hi : i < c.labels.length)
    (hv : c.labels.get ⟨i, hi⟩ = arr[j]!)
    (hlast : ∀ i' (hi' : i' < c.labels.length), i < i' →
      c.labels.get ⟨i', hi'⟩ ≠ arr[j]!) :
    (encode c arr)[j]! = (i + 1) % 2 ^ c.width := by
  rw [encode_getElem c arr j hj]
  exact encodeElem_last_match c.labels c.width _ i hi hv hlast

set_option maxRecDepth 40000 in
/-- Claim C7 witness: a 1-byte encoded type with 256 labels wraps the last
label's code to `0`. -/
theorem encode_wraparound_witness :
    (encode ⟨List.range 256, (0 : Nat), 8⟩ [255])[0]! = (255 + 1) % 2 ^ 8 ∧
    (255 + 1) % 2 ^ 8 = 0 :=
  ⟨encode_wraparound ⟨List.range 256, (0 : Nat), 8⟩ [255] 0 255 (by decide)
      (by decide) (by decide)
      (by
        intro i' hi' h
        exact absurd (show i' < 256 by simpa using hi') (by omega)),
    by norm_num⟩

/-- Claim C6 witness. -/
theorem duplicate_label_policy_witness :
    encode ⟨[(5 : Nat), 5], 0, 8⟩ [5] = [2] ∧
    decode ⟨[(5 : Nat), 5], 0, 8⟩ [1] none = [5] ∧
    decode ⟨[(5 : Nat), 5], 0, 8⟩ [2] none = [5] :=
  duplicate_label_policy 5 0

set_option maxRecDepth 40000 in
/-- Claim C8 counterexample: with 256 labels and a 1-byte encoded type, the
position matching `labels[255]` (and no later label) receives code `0` rather
than `256`, and moving that label to the front changes the same position's
code to `1` — so permuting the label list does not leave the set of
sentinel-mapped positions unchanged. -/
theorem order_sensitivity_cex :
    (encode ⟨List.range 256, (0 : Nat), 8⟩ [255])[0]! = 0 ∧
    (encode ⟨(255 : Nat) :: List.range 255, 0, 8⟩ [255])[0]! = 1 := by
  decide

/-- Claim C8 (amended): provided the encoded type is wide enough
(`len(labels) < 2 ^ width`), `encode` assigns code `i + 1` to each position
whose value is last matched by `labels[i]`, and permuting the label list
changes the assigned codes but leaves exactly the same set of positions mapped
to the sentinel `0`. -/
theorem order_sensitivity [Inhabited V] (c : Categorize V) (labels2 : List V)
    (hperm : c.labels.Perm labels2) (hw : c.labels.length < 2 ^ c.width)
    (arr : List V) (j : Nat) (hj : j < arr.length) :
    (∀ i (hi : i < c.labels.length), c.labels.get ⟨i, hi⟩ = arr[j]! →
      (∀ i' (hi' : i' < c.labels.length), i < i' →
        c.labels.get ⟨i', hi'⟩ ≠ arr[j]!) →
      (encode c arr)[j]! = i + 1) ∧
    ((encode c arr)[j]! = 0 ↔
      (encode ⟨labels2, c.zero, c.width⟩ arr)[j]! = 0) := by
  constructor
  · intro i hi hv hlast
    rw [encode_getElem c arr j hj,
      encodeElem_last_match c.labels c.width _ i hi hv hlast]
    exact Nat.mod_eq_of_lt (by omega)
  · rw [encode_getElem c arr j hj,
      encode_getElem ⟨labels2, c.zero, c.width⟩ arr j hj]
    show encodeElem c.labels c.width (arr[j]!) = 0 ↔
      encodeElem labels2 c.width (arr[j]!) = 0
    rw [encodeElem_eq_zero_iff c.labels c.width hw,
      encodeElem_eq_zero_iff labels2 c.width (by rw [← hperm.length_eq]; exact hw)]
    constructor
    · intro hnm hm
      exact hnm (hperm.mem_iff.mpr hm)
    · intro hnm hm
      exact hnm (hperm.mem_iff.mp hm)

/-- Claim C8 witness. -/
theorem order_sensitivity_witness :
    (encode ⟨[(10 : Nat), 20], 0, 8⟩ [30, 10])[1]! = 0 + 1 ∧
    ((encode ⟨[(10 : Nat), 20], 0, 8⟩ [30, 10])[0]! = 0 ↔
      (encode ⟨[(20 : Nat), 10], 0, 8⟩ [30, 10])[0]! = 0) :=
  by
  constructor
  · have h := (order_sensitivity ⟨[(10 : Nat), 20], 0, 8⟩ [20, 10] (by decide)
      (by decide) [30, 10] 1 (by decide)).1
    refine h 0 (by decide) (by decide) ?_
    intro i' hi' hgt
    have h2 : i' < 2 := by simpa using hi'
    have h3 : i' = 1 := by omega
    subst h3
    show (20 : Nat) ≠ 10
    decide
  · exact (order_sensitivity ⟨[(10 : Nat), 20], 0, 8⟩ [20, 10] (by decide)
      (by decide) [30, 10] 0 (by decide)).2

/-- Claim C9: with labels `["female", "male"]`, a fixed-width byte-string
decoded type (zero value the empty string) and a 1-byte unsigned encoded
type, `[male, female, female, male, unexpected]` encodes to `[2, 1, 1, 2, 0]`
and `[2, 1, 1, 2, 0]` decodes to `[male, female, female, male, ""]`. -/
theorem concrete_scenario :
    encode ⟨["female", "male"], "", 8⟩
        ["male", "female", "female", "male", "unexpected"] = [2, 1, 1, 2, 0] ∧
    decode ⟨["female", "male"], "", 8⟩ [2, 1, 1, 2, 0] none
      = ["male", "female", "female", "male", ""] := by
  decide

/-- Claim C10: with an empty label list, `encode` maps every input array to
the all-zeros code array of the same length, and the buffer-less `decode`
maps every code array — whatever its codes — to the array of zero values of
the decoded dtype. -/
theorem empty_labels_behavior (zero : V) (w : Nat) (arr : List V)
    (enc : List Nat) :
    encode ⟨[], zero, w⟩ arr = List.replicate arr.length 0 ∧
    decode ⟨[], zero, w⟩ enc none = List.replicate enc.length zero :=
  ⟨rfl, rfl⟩

/-- Claim C10 witness. -/
theorem empty_labels_behavior_witness :
    encode ⟨[], (0 : Nat), 8⟩ [3] = List.replicate ([3] : List Nat).length 0 ∧
    decode ⟨[], (0 : Nat), 8⟩ [9] none = List.replicate ([9] : List Nat).length 0 :=
  empty_labels_behavior 0 8 [3] [9]

end Categorize
